import Mathlib

/-!
# Truncate — verification of the core rules engine

A shallow embedding of the Truncate word-game rules engine:

* `src/judge.rs` — the battle adjudicator `Judge.battle` (attackers vs
  defenders over a dictionary), embedded below together with its older
  variant `Judge.Battle` from `src/battle.rs`.
* `src/moves.rs` — move validation (`Board.make_move`), attack resolution
  (`Board.resolve_attack`) and combatant collection, embedded in
  state-passing style so that early error returns carry the board state at
  the point of return, exactly as the imperative code does.
* `board.rs`, `hand.rs` and `error.rs` are referenced from `moves.rs` but
  are not part of the available sources; their operations are modelled
  from the design document (grid with per-player roots, bounds-checked
  access, word discovery, truncation by root-connectivity, and the tile
  inventory collaborator).  Each such definition is marked
  `Modelled from the spec:` in its doc comment.

Word lengths are modelled with `String.length`; the game only ever places
single `Char` tiles, so byte length and character length agree.
-/

/-! ## Dictionary and battle adjudication (`src/judge.rs`) -/

/-- Battle result of `judge.rs`: `AttackerWins` carries the positional
indices of the defeated defender words. -/
inductive Outcome where
  | AttackerWins (losers : List Nat)
  | DefenderWins
  | NoBattle
deriving DecidableEq, Repr

/-- The judge owns an immutable dictionary (a `HashSet<String>` in the
source, modelled as a list queried by membership). -/
structure Judge where
  dictionary : List String
deriving DecidableEq, Repr

/-- `Judge::valid`: exact, case-sensitive dictionary membership. -/
def Judge.valid (j : Judge) (word : String) : Bool :=
  j.dictionary.contains word

/-- The `reduce` that picks the longest attacker in `Judge::battle`
(`if curr.len() > longest.len() { curr } else { longest }`, seeded with
the first element). -/
def longest_word : List String → String
  | [] => ""
  | w :: ws => ws.foldl (fun longest curr =>
      if curr.length > longest.length then curr else longest) w

/-- `Judge::battle` from `src/judge.rs`: no combatants means no battle; an
invalid attacker word loses the battle outright; otherwise every defender
that is invalid or more than one letter shorter than the longest attacker
is weak, and the attacker wins exactly when some defender is weak,
carrying the weak indices. -/
def Judge.battle (j : Judge) (attackers defenders : List String) : Outcome :=
  if attackers.isEmpty || defenders.isEmpty then
    .NoBattle
  else if attackers.any (fun word => !(j.valid word)) then
    .DefenderWins
  else
    let longest_attacker := longest_word attackers
    let weak_defenders : List Nat :=
      (defenders.enum.filter (fun iw =>
        !(j.valid iw.2) || iw.2.length + 1 < longest_attacker.length)).map
        (fun iw => iw.1)
    if weak_defenders.isEmpty then .DefenderWins
    else .AttackerWins weak_defenders

/-! ## The older adjudicator (`src/battle.rs`) -/

namespace BattleRs

/-- Battle result of the older `battle.rs`: no defeated-defender payload. -/
inductive Outcome where
  | AttackerWins
  | DefenderWins
  | NoBattle
deriving DecidableEq, Repr

end BattleRs

/-- `Judge::Battle` from `src/battle.rs`: same shape as `Judge::battle`
but the strong-defender check is an all-quantified conjunction and the
attacker-wins result carries no indices. -/
def Judge.Battle (j : Judge) (attackers defenders : List String) : BattleRs.Outcome :=
  if attackers.isEmpty || defenders.isEmpty then
    .NoBattle
  else if attackers.any (fun word => !(j.valid word)) then
    .DefenderWins
  else
    let longest_attacker := longest_word attackers
    let defenders_strong := defenders.all (fun word =>
      j.valid word && word.length + 1 ≥ longest_attacker.length)
    if defenders_strong then .DefenderWins
    else .AttackerWins

/-- The maximum word length of a list, used to state properties of the
longest-attacker computation. -/
def maxWordLength (words : List String) : Nat :=
  (words.map String.length).foldr Nat.max 0

/-! ## The grid (`board.rs`, modelled) -/

/-- Zero-based grid coordinate. -/
structure Coordinate where
  x : Nat
  y : Nat
deriving DecidableEq, Repr

/-- A square is empty or occupied by `(owner, letter)`. -/
inductive Square where
  | Empty
  | Occupied (owner : Nat) (letter : Char)
deriving DecidableEq, Repr

/-- Modelled from the spec: the error taxonomy of `error.rs`, which is not
in the available sources — out-of-bounds coordinate, occupied square on
place, non-adjacent placement, invalid player, tile unavailable, and swap
source not owned (constructor names follow the uses in `moves.rs`). -/
inductive GamePlayError where
  | OutSideBoardDimensions (position : Coordinate)
  | InvalidPosition (position : Coordinate)
  | OccupiedPlace
  | NonAdjacentPlace
  | NonExistentPlayer (index : Nat)
  | PlayerDoesNotHaveTile (player : Nat) (tile : Char)
  | SwapSourceNotOwned (player : Nat) (position : Coordinate)
deriving DecidableEq, Repr

/-- A compass direction: the reading orientation of a player. -/
inductive Direction where
  | North
  | East
  | South
  | West
deriving DecidableEq, Repr

/-- Modelled from the spec: the grid of `board.rs`, which is not in the
available sources — width, height, a total assignment of squares (only
in-bounds coordinates are meaningful), one root coordinate per player and
one reading orientation per player (the orientation fixes the order in
which a player's words are read). -/
@[ext]
structure Board where
  width : Nat
  height : Nat
  squares : Coordinate → Square
  roots : List Coordinate
  orientations : List Direction

/-- Bounds test for a coordinate. -/
def Board.inB (b : Board) (c : Coordinate) : Bool :=
  decide (c.x < b.width) && decide (c.y < b.height)

/-- Modelled from the spec: `Board::get` — bounds-checked read. -/
def Board.get (b : Board) (c : Coordinate) : Except GamePlayError Square :=
  if b.inB c then .ok (b.squares c) else .error (.OutSideBoardDimensions c)

/-- Unchecked write used once bounds are known (total: out of bounds is a
no-op). -/
def Board.setD (b : Board) (c : Coordinate) (p : Nat) (l : Char) : Board :=
  if b.inB c then
    { b with squares := fun c' => if c' = c then .Occupied p l else b.squares c' }
  else b

/-- Modelled from the spec: `Board::set` — bounds-checked write of an
occupied square. -/
def Board.set (b : Board) (c : Coordinate) (p : Nat) (l : Char) :
    Except GamePlayError Board :=
  if b.inB c then .ok (b.setD c p l) else .error (.OutSideBoardDimensions c)

/-- Modelled from the spec: `Board::clear` — reset a square to `Empty`
(total form; `moves.rs` discards the error, so out of bounds is a no-op). -/
def Board.clearD (b : Board) (c : Coordinate) : Board :=
  if b.inB c then
    { b with squares := fun c' => if c' = c then .Empty else b.squares c' }
  else b

/-- Modelled from the spec: `Board::get_root` — the player's configured
root, or an invalid-player error. -/
def Board.get_root (b : Board) (p : Nat) : Except GamePlayError Coordinate :=
  match b.roots.get? p with
  | some r => .ok r
  | none => .error (.NonExistentPlayer p)

/-- Total form of the root lookup used by connectivity computations; a
player without a configured root gets an out-of-bounds sentinel from
which nothing is reachable. -/
def Board.rootD (b : Board) (p : Nat) : Coordinate :=
  (b.roots.get? p).getD ⟨b.width, b.height⟩

/-- Modelled from the spec: the up-to-four cardinally adjacent in-bounds
coordinates of a square. -/
def Board.neighbourCoords (b : Board) (c : Coordinate) : List Coordinate :=
  ([Coordinate.mk c.x (c.y + 1)] ++
   [Coordinate.mk (c.x + 1) c.y] ++
   (if 0 < c.x then [Coordinate.mk (c.x - 1) c.y] else []) ++
   (if 0 < c.y then [Coordinate.mk c.x (c.y - 1)] else [])).filter b.inB

/-- Modelled from the spec: `Board::neighbouring_squares` — the in-bounds
cardinal neighbours paired with their contents. -/
def Board.neighbouring_squares (b : Board) (c : Coordinate) :
    List (Coordinate × Square) :=
  (b.neighbourCoords c).map (fun c' => (c', b.squares c'))

/-- Does player `p` occupy square `c`? -/
def Board.occB (b : Board) (c : Coordinate) (p : Nat) : Bool :=
  match b.squares c with
  | .Occupied q _ => q == p
  | .Empty => false

/-! ### Root connectivity (the truncation pass, modelled) -/

/-- One breadth-first expansion step of the set of squares known to be
connected to a root: adjoin every not-yet-seen neighbour occupied by the
player. -/
def Board.expand (b : Board) (p : Nat) (s : List Coordinate) : List Coordinate :=
  s ++ ((s.flatMap b.neighbourCoords).filter
    (fun c => b.occB c p && !(decide (c ∈ s)))).dedup

/-- `n` expansion steps from the player's root. -/
def Board.reachN (b : Board) (p : Nat) : Nat → List Coordinate
  | 0 => [b.rootD p]
  | n + 1 => b.expand p (b.reachN p n)

/-- All squares connected to player `p`'s root through squares occupied by
`p`; `width * height` expansion steps saturate the grid. -/
def Board.reachList (b : Board) (p : Nat) : List Coordinate :=
  b.reachN p (b.width * b.height)

/-- Modelled from the spec: the grid part of `Board::truncate` — every
occupied square not connected to its owner's root is cleared. -/
def Board.truncateB (b : Board) : Board :=
  { b with squares := fun c =>
      match b.squares c with
      | .Empty => .Empty
      | .Occupied p l => if c ∈ b.reachList p then .Occupied p l else .Empty }

/-! ### Word discovery (`board.rs`, modelled) -/

/-- Step one square west, if any. -/
def Board.stepW (_ : Board) (c : Coordinate) : Option Coordinate :=
  if 0 < c.x then some ⟨c.x - 1, c.y⟩ else none

/-- Step one square east, if any. -/
def Board.stepE (b : Board) (c : Coordinate) : Option Coordinate :=
  if c.x + 1 < b.width then some ⟨c.x + 1, c.y⟩ else none

/-- Step one square north, if any. -/
def Board.stepN (_ : Board) (c : Coordinate) : Option Coordinate :=
  if 0 < c.y then some ⟨c.x, c.y - 1⟩ else none

/-- Step one square south, if any. -/
def Board.stepS (b : Board) (c : Coordinate) : Option Coordinate :=
  if c.y + 1 < b.height then some ⟨c.x, c.y + 1⟩ else none

/-- Walk from `c` in the direction given by `step` while the squares stay
occupied by player `p`, collecting the run (fuelled by the grid size). -/
def Board.runFrom (b : Board) (p : Nat) (step : Coordinate → Option Coordinate) :
    Nat → Coordinate → List Coordinate
  | 0, _ => []
  | n + 1, c =>
    match step c with
    | none => []
    | some c' =>
      if b.occB c' p then c' :: b.runFrom p step n c' else []

/-- The two maximal same-owner runs through `c` (vertical first, then
horizontal), each read in the direction fixed by the owner's
orientation: a North reader's words run towards the north and the west, a
South reader's towards the south and the east (the choice for East and
West readers mirrors these). -/
def Board.axisRuns (b : Board) (p : Nat) (c : Coordinate) :
    List Coordinate × List Coordinate :=
  let fuel := b.width + b.height
  let n := b.runFrom p b.stepN fuel c
  let s := b.runFrom p b.stepS fuel c
  let w := b.runFrom p b.stepW fuel c
  let e := b.runFrom p b.stepE fuel c
  match (b.orientations.get? p).getD .South with
  | .North => (s.reverse ++ c :: n, e.reverse ++ c :: w)
  | .West => (s.reverse ++ c :: n, e.reverse ++ c :: w)
  | .South => (n.reverse ++ c :: s, w.reverse ++ c :: e)
  | .East => (n.reverse ++ c :: s, w.reverse ++ c :: e)

/-- Modelled from the spec: `Board::get_words` — the maximal same-owner
runs through an occupied coordinate, one per axis of length at least two
(vertical first), or the lone letter as a single-letter word when both
axes are bare. -/
def Board.get_words (b : Board) (c : Coordinate) : List (List Coordinate) :=
  match b.squares c with
  | .Empty => []
  | .Occupied p _ =>
    let vh := b.axisRuns p c
    if 2 ≤ vh.1.length ∧ 2 ≤ vh.2.length then [vh.1, vh.2]
    else if 2 ≤ vh.1.length then [vh.1]
    else if 2 ≤ vh.2.length then [vh.2]
    else [[c]]

/-- Modelled from the spec: `Board::word_strings` — map each word's
coordinates to its letters in board order; fails if any referenced square
is empty. -/
def Board.word_strings (b : Board) (words : List (List Coordinate)) :
    Option (List String) :=
  words.mapM (fun word =>
    (word.mapM (fun c =>
      match b.squares c with
      | .Occupied _ l => some l
      | .Empty => none)).map String.mk)

/-! ## The tile inventory (`hand.rs`, modelled) -/

/-- Modelled from the spec: the tile-inventory collaborator of `hand.rs`,
which is not in the available sources — one rack of letters per player,
plus the stream of letters given back through `return_tile` (the spec
fixes only the `use_tile`/`return_tile` interface, with no per-player
routing on return). -/
structure Hands where
  racks : List (List Char)
  returned : List Char
deriving DecidableEq, Repr

/-- Modelled from the spec: `Hands::return_tile` — hand a cleared letter
back to the inventory. -/
def Hands.return_tile (h : Hands) (l : Char) : Hands :=
  { h with returned := h.returned ++ [l] }

/-- Modelled from the spec: `Hands::use_tile` — consume one copy of the
tile from the player's rack; fails for an unknown player or a tile the
player does not hold. -/
def Hands.use_tile (h : Hands) (p : Nat) (t : Char) :
    Except GamePlayError Hands :=
  match h.racks.get? p with
  | none => .error (.NonExistentPlayer p)
  | some rack =>
    if t ∈ rack then
      .ok { h with racks := h.racks.set p (rack.erase t) }
    else
      .error (.PlayerDoesNotHaveTile p t)

/-- Row-major enumeration of the in-bounds coordinates. -/
def Board.allCoords (b : Board) : List Coordinate :=
  (List.range b.height).flatMap (fun y =>
    (List.range b.width).map (fun x => ⟨x, y⟩))

/-- Modelled from the spec: `Board::truncate` — clear every occupied
square that is not connected to its owner's root and return each cleared
letter to the inventory. -/
def Board.truncate (b : Board) (h : Hands) : Board × Hands :=
  (b.truncateB,
   b.allCoords.foldl (fun h c =>
     match b.squares c with
     | .Occupied p l => if c ∈ b.reachList p then h else h.return_tile l
     | .Empty => h) h)

/-- Modelled from the spec: `Board::swap` — exchange the letters at two
coordinates both occupied by the player; fails (leaving the grid
untouched) if either square is out of bounds or not owned by the player. -/
def Board.swap (b : Board) (player : Nat) (c1 c2 : Coordinate) :
    Board × Option GamePlayError :=
  match b.get c1 with
  | .error e => (b, some e)
  | .ok .Empty => (b, some (.SwapSourceNotOwned player c1))
  | .ok (.Occupied p1 l1) =>
    if p1 = player then
      match b.get c2 with
      | .error e => (b, some e)
      | .ok .Empty => (b, some (.SwapSourceNotOwned player c2))
      | .ok (.Occupied p2 l2) =>
        if p2 = player then
          (((b.setD c1 player l2).setD c2 player l1), none)
        else (b, some (.SwapSourceNotOwned player c2))
    else (b, some (.SwapSourceNotOwned player c1))

/-! ## Moves (`src/moves.rs`) -/

/-- A move: place a tile, or swap two own tiles. -/
inductive Move where
  | Place (player : Nat) (tile : Char) (position : Coordinate)
  | Swap (player : Nat) (c1 c2 : Coordinate)

/-- `Board::collect_combanants`: attacker words through the placed
coordinate; defender words through every neighbouring square occupied by
another player. -/
def Board.collect_combanants (b : Board) (player : Nat) (position : Coordinate) :
    List (List Coordinate) × List (List Coordinate) :=
  (b.get_words position,
   ((b.neighbouring_squares position).filter (fun cs =>
      match cs.2 with
      | .Occupied adjacent_player _ => adjacent_player != player
      | .Empty => false)).flatMap (fun cs => b.get_words cs.1))

/-- The body of the clearing loops in `Board::resolve_attack`: return the
letter of an occupied square to the inventory, then clear the square. -/
def clearSquare (bh : Board × Hands) (c : Coordinate) : Board × Hands :=
  match bh.1.get c with
  | .ok (.Occupied _ letter) => (bh.1.clearD c, bh.2.return_tile letter)
  | _ => (bh.1.clearD c, bh.2)

/-- Clear a list of coordinates in order. -/
def clearSquares (bh : Board × Hands) (cs : List Coordinate) : Board × Hands :=
  cs.foldl clearSquare bh

/-- The outcome-application block of `Board::resolve_attack` (the `match`
on the battle result): on `DefenderWins` clear every attacker word, on
`AttackerWins` clear the defender words at the losing indices, on
`NoBattle` do nothing. -/
def applyOutcome (bh : Board × Hands)
    (attackers defenders : List (List Coordinate)) :
    Outcome → Board × Hands
  | .NoBattle => bh
  | .DefenderWins => clearSquares bh attackers.flatten
  | .AttackerWins losers =>
    losers.foldl (fun bh i => clearSquares bh ((defenders.get? i).getD [])) bh

/-- `Board::resolve_attack`: collect combatants, judge their word strings,
apply the outcome, then truncate. -/
def Board.resolve_attack (b : Board) (player : Nat) (position : Coordinate)
    (judge : Judge) (h : Hands) : Board × Hands :=
  let ad := b.collect_combanants player position
  let attacking_words := (b.word_strings ad.1).getD []
  let defending_words := (b.word_strings ad.2).getD []
  let bh := applyOutcome (b, h) ad.1 ad.2 (judge.battle attacking_words defending_words)
  bh.1.truncate bh.2

/-- `Board::make_move`, in state-passing style: the returned board and
hands are the state at the point of return, and the third component is
the structured error, if any (`none` on success). -/
def Board.make_move (b : Board) (h : Hands) (judge : Judge) :
    Move → Board × Hands × Option GamePlayError
  | .Place player tile position =>
    match b.get position with
    | .error e => (b, h, some e)
    | .ok (.Occupied _ _) => (b, h, some .OccupiedPlace)
    | .ok .Empty =>
      match b.get_root player with
      | .error e => (b, h, some e)
      | .ok root =>
        if position ≠ root ∧
            ¬ (b.neighbouring_squares position).any (fun cs =>
              match cs.2 with
              | .Occupied p _ => p == player
              | .Empty => false) then
          (b, h, some .NonAdjacentPlace)
        else
          match h.use_tile player tile with
          | .error e => (b, h, some e)
          | .ok h' =>
            match b.set position player tile with
            | .error e => (b, h', some e)
            | .ok b' =>
              let bh := b'.resolve_attack player position judge h'
              (bh.1, bh.2, none)
  | .Swap player c1 c2 =>
    let be := b.swap player c1 c2
    (be.1, h, be.2)

/-! ## The connectivity invariant -/

/-- Spec-level reachability: a square is reachable from player `p`'s root
when it is the root itself or follows from a reachable square by one
cardinal step onto a square occupied by `p`. -/
inductive Board.Reaches (b : Board) (p : Nat) : Coordinate → Prop where
  | root : b.Reaches p (b.rootD p)
  | step {c c' : Coordinate} : b.Reaches p c → c' ∈ b.neighbourCoords c →
      b.occB c' p = true → b.Reaches p c'

/-- The connectivity invariant of the design document: every occupied
in-bounds square is reachable from its owner's root through squares
occupied by the same owner. -/
def Board.connectedInv (b : Board) : Prop :=
  ∀ c p l, b.inB c = true → b.squares c = .Occupied p l → b.Reaches p c

/-- The letters collected while clearing a list of coordinates in order:
a letter is collected exactly when its square is still occupied at the
moment it is cleared (a coordinate listed twice yields its letter once). -/
def clearedLetters : Board → List Coordinate → List Char
  | _, [] => []
  | b, c :: cs =>
    (match b.get c with
     | .ok (.Occupied _ letter) => [letter]
     | _ => []) ++ clearedLetters (b.clearD c) cs

/-! ## Concrete instances used to exercise the theorems -/

/-- The short dictionary used throughout the repository's tests. -/
def shortDict : Judge :=
  ⟨["BIG", "FAT", "JOLLY", "AND", "SILLY", "FOLK", "ARTS"]⟩

/-- An empty two-by-two board with a single player rooted at the origin. -/
def exEmptyBoard : Board :=
  { width := 2, height := 2, squares := fun _ => .Empty,
    roots := [⟨0, 0⟩], orientations := [.North] }

/-- A two-by-two board whose two occupied squares are diagonal to each
other, so the square away from the root is disconnected from it. -/
def exSplitBoard : Board :=
  { width := 2, height := 2,
    squares := fun c =>
      if c = ⟨0, 0⟩ then .Occupied 0 'A'
      else if c = ⟨1, 1⟩ then .Occupied 0 'B'
      else .Empty,
    roots := [⟨0, 0⟩], orientations := [.North] }

/-- A small stock of tiles for two players. -/
def exHands : Hands := ⟨[['A', 'B'], ['C', 'D']], []⟩

/-! ## Facts about the adjudicators -/

lemma maxWordLength_cons (w : String) (ws : List String) :
    maxWordLength (w :: ws) = Nat.max w.length (maxWordLength ws) := by
  simp [maxWordLength]

lemma longest_word_foldl_length (ws : List String) (w : String) :
    (ws.foldl (fun longest curr =>
      if curr.length > longest.length then curr else longest) w).length =
    Nat.max w.length (maxWordLength ws) := by
  induction ws generalizing w with
  | nil => simp [maxWordLength]
  | cons c cs ih =>
    rw [List.foldl_cons, ih]
    have hpick : (if c.length > w.length then c else w).length =
        Nat.max w.length c.length := by
      split
      · exact (Nat.max_eq_right (by omega)).symm
      · exact (Nat.max_eq_left (by omega)).symm
    rw [hpick, maxWordLength_cons]
    exact Nat.max_assoc _ _ _

/-- The `reduce` in `Judge::battle` indeed returns a word of maximum
length. -/
lemma longest_word_length (atk : List String) (h : atk ≠ []) :
    (longest_word atk).length = maxWordLength atk := by
  match atk with
  | w :: ws =>
    show (ws.foldl (fun longest curr =>
      if curr.length > longest.length then curr else longest) w).length = _
    rw [longest_word_foldl_length, maxWordLength_cons]

lemma mem_enum_filter_map (P : Nat × String → Bool) (l : List String) (i : Nat) :
    i ∈ (l.enum.filter P).map (fun iw => iw.1) ↔
      ∃ w, l[i]? = some w ∧ P (i, w) = true := by
  simp only [List.mem_map, List.mem_filter]
  constructor
  · rintro ⟨⟨i', w⟩, ⟨hmem, hP⟩, rfl⟩
    exact ⟨w, List.mem_enum_iff_getElem?.mp hmem, hP⟩
  · rintro ⟨w, hget, hP⟩
    exact ⟨(i, w), ⟨List.mem_enum_iff_getElem?.mpr hget, hP⟩, rfl⟩

/-- `Judge::battle` on non-empty lists of valid attackers reduces to the
weak-defender test. -/
lemma battle_of_valid (j : Judge) (atk dfd : List String)
    (ha : atk ≠ []) (hd : dfd ≠ [])
    (hv : ∀ w ∈ atk, j.valid w = true) :
    j.battle atk dfd =
      (if ((dfd.enum.filter (fun iw =>
            !(j.valid iw.2) || iw.2.length + 1 < (longest_word atk).length)).map
            (fun iw => iw.1)).isEmpty
       then Outcome.DefenderWins
       else Outcome.AttackerWins
        ((dfd.enum.filter (fun iw =>
            !(j.valid iw.2) || iw.2.length + 1 < (longest_word atk).length)).map
            (fun iw => iw.1))) := by
  have h1 : (atk.isEmpty || dfd.isEmpty) = false := by
    simp [List.isEmpty_iff, ha, hd]
  have h2 : atk.any (fun word => !(j.valid word)) = false := by
    simp only [List.any_eq_false, Bool.not_eq_true]
    intro w hw
    simp [hv w hw]
  rw [Judge.battle, h1, h2]
  simp

/-- C4: with an empty attacker list or an empty defender list,
`Judge::battle` returns `NoBattle`. -/
theorem battle_empty_no_battle (j : Judge) (atk dfd : List String)
    (h : atk = [] ∨ dfd = []) : j.battle atk dfd = .NoBattle := by
  rcases h with h | h <;> subst h <;> simp [Judge.battle]

/-- Witness for `battle_empty_no_battle` at a concrete input. -/
theorem battle_empty_no_battle_witness :
    Judge.battle ⟨["BIG"]⟩ ["WORD"] [] = .NoBattle :=
  battle_empty_no_battle ⟨["BIG"]⟩ ["WORD"] [] (Or.inr rfl)

/-- C3: a single attacker word outside the dictionary makes
`Judge::battle` return `DefenderWins`, whatever the defenders are. -/
theorem battle_invalid_attacker_defender_wins (j : Judge)
    (atk dfd : List String) (ha : atk ≠ []) (hd : dfd ≠ [])
    (hw : ∃ w ∈ atk, j.valid w = false) :
    j.battle atk dfd = .DefenderWins := by
  have h1 : (atk.isEmpty || dfd.isEmpty) = false := by
    simp [List.isEmpty_iff, ha, hd]
  have h2 : atk.any (fun word => !(j.valid word)) = true := by
    rcases hw with ⟨w, hmem, hval⟩
    simp only [List.any_eq_true]
    exact ⟨w, hmem, by simp [hval]⟩
  rw [Judge.battle, h1, h2]
  simp

/-- Witness for `battle_invalid_attacker_defender_wins`: `XYZ` is not in
the short dictionary. -/
theorem battle_invalid_attacker_defender_wins_witness :
    Judge.battle ⟨["BIG", "FAT", "JOLLY", "AND", "SILLY", "FOLK", "ARTS"]⟩
      ["XYZ", "BIG"] ["BIG"] = .DefenderWins :=
  battle_invalid_attacker_defender_wins _ _ _
    (by decide) (by decide) ⟨"XYZ", by decide, by decide⟩

/-- C10: whenever `Judge::battle` answers `AttackerWins is`, the index
list is non-empty, strictly increasing and within the bounds of the
defender list. -/
theorem battle_attacker_wins_indices (j : Judge) (atk dfd : List String)
    (is : List Nat) (h : j.battle atk dfd = .AttackerWins is) :
    is ≠ [] ∧ List.Pairwise (fun a b => a < b) is ∧ ∀ i ∈ is, i < dfd.length := by
  simp only [Judge.battle] at h
  split at h
  · simp at h
  · split at h
    · simp at h
    · split at h
      · simp at h
      · rename_i hne
        cases h
        refine ⟨?_, ?_, ?_⟩
        · intro hnil
          rw [hnil] at hne
          simp at hne
        · have h1 : List.Pairwise (fun (a b : Nat × String) => a.1 < b.1) dfd.enum := by
            have h0 := List.pairwise_lt_range dfd.length
            rw [← List.enum_map_fst dfd] at h0
            exact (List.pairwise_map).mp h0
          exact (List.pairwise_map).mpr
            (List.Pairwise.sublist (List.filter_sublist _) h1)
        · intro i hi
          rw [mem_enum_filter_map] at hi
          rcases hi with ⟨w, hget, _⟩
          rcases List.getElem?_eq_some.mp hget with ⟨hlt, _⟩
          exact hlt

/-- Witness for `battle_attacker_wins_indices`: the multi-defender battle
from the `judge.rs` tests. -/
theorem battle_attacker_wins_indices_witness :
    ([0, 1, 4] : List Nat) ≠ [] ∧
      List.Pairwise (fun a b => a < b) [0, 1, 4] ∧
      ∀ i ∈ [0, 1, 4],
        i < (["FAT", "BIG", "JOLLY", "FOLK", "XYZXYZXYZ"] : List String).length :=
  battle_attacker_wins_indices
    ⟨["BIG", "FAT", "JOLLY", "AND", "SILLY", "FOLK", "ARTS"]⟩
    ["JOLLY"] ["FAT", "BIG", "JOLLY", "FOLK", "XYZXYZXYZ"] [0, 1, 4] (by decide)

/-- C1: with non-empty combatant lists and every attacker valid, a
defender is weak exactly when it is not in the dictionary or more than
one letter shorter than the longest attacker; `Judge::battle` returns
`DefenderWins` precisely when no defender is weak, and otherwise
`AttackerWins` carrying exactly the weak indices. -/
theorem battle_weak_defender_characterisation (j : Judge)
    (atk dfd : List String) (ha : atk ≠ []) (hd : dfd ≠ [])
    (hv : ∀ w ∈ atk, j.valid w = true) :
    (∀ is, j.battle atk dfd = .AttackerWins is →
      ∀ i, i ∈ is ↔ ∃ w, dfd[i]? = some w ∧
        (j.valid w = false ∨ w.length + 1 < maxWordLength atk)) ∧
    (j.battle atk dfd = .DefenderWins ↔
      ∀ (i : Nat) (w : String), dfd[i]? = some w →
        j.valid w = true ∧ maxWordLength atk ≤ w.length + 1) ∧
    (j.battle atk dfd = .DefenderWins ∨
      ∃ is, j.battle atk dfd = .AttackerWins is) := by
  have hL := longest_word_length atk ha
  have hmem : ∀ i, (i ∈ (dfd.enum.filter (fun iw =>
      !(j.valid iw.2) ||
        iw.2.length + 1 < (longest_word atk).length)).map (fun iw => iw.1)) ↔
      ∃ w, dfd[i]? = some w ∧
        (j.valid w = false ∨ w.length + 1 < maxWordLength atk) := by
    intro i
    rw [mem_enum_filter_map]
    constructor
    · rintro ⟨w, hget, hP⟩
      refine ⟨w, hget, ?_⟩
      rw [← hL]
      simpa using hP
    · rintro ⟨w, hget, hP⟩
      refine ⟨w, hget, ?_⟩
      rw [← hL] at hP
      simpa using hP
  rw [battle_of_valid j atk dfd ha hd hv]
  by_cases hcase : ((dfd.enum.filter (fun iw =>
      !(j.valid iw.2) ||
        iw.2.length + 1 < (longest_word atk).length)).map (fun iw => iw.1)).isEmpty
  · rw [if_pos hcase]
    have hnil := List.isEmpty_iff.mp hcase
    refine ⟨?_, ?_, Or.inl rfl⟩
    · intro is his
      simp at his
    · simp only [true_iff]
      intro i w hget
      have : ¬ ∃ w, dfd[i]? = some w ∧
          (j.valid w = false ∨ w.length + 1 < maxWordLength atk) := by
        rw [← hmem, hnil]
        simp
      by_contra hcon
      refine this ⟨w, hget, ?_⟩
      rcases not_and_or.mp hcon with h | h
      · exact Or.inl (Bool.eq_false_iff.mpr h)
      · exact Or.inr (by omega)
  · rw [if_neg hcase]
    refine ⟨?_, ?_, Or.inr ⟨_, rfl⟩⟩
    · intro is his i
      cases his
      exact hmem i
    · simp only [reduceCtorEq, false_iff]
      intro hcon
      have hne2 : (dfd.enum.filter (fun iw =>
          !(j.valid iw.2) ||
            iw.2.length + 1 < (longest_word atk).length)).map (fun iw => iw.1) ≠ [] := by
        intro hnil
        exact hcase (by simp [hnil])
      rcases List.exists_mem_of_ne_nil _ hne2 with ⟨i, hi⟩
      rcases (hmem i).mp hi with ⟨w, hget, hP⟩
      rcases hcon i w hget with ⟨hval, hlen⟩
      rcases hP with h | h
      · rw [hval] at h
        simp at h
      · omega

/-- Witness for `battle_weak_defender_characterisation` at the
`JOLLY` versus `FAT`/`FOLK` battle of the `judge.rs` tests. -/
theorem battle_weak_defender_characterisation_witness :
    Judge.battle ⟨["BIG", "FAT", "JOLLY", "AND", "SILLY", "FOLK", "ARTS"]⟩
        ["JOLLY"] ["FAT", "FOLK"] = .DefenderWins ∨
      ∃ is, Judge.battle ⟨["BIG", "FAT", "JOLLY", "AND", "SILLY", "FOLK", "ARTS"]⟩
        ["JOLLY"] ["FAT", "FOLK"] = .AttackerWins is :=
  (battle_weak_defender_characterisation
    ⟨["BIG", "FAT", "JOLLY", "AND", "SILLY", "FOLK", "ARTS"]⟩
    ["JOLLY"] ["FAT", "FOLK"] (by decide) (by decide) (by decide)).2.2

/-- The strong-defender conjunction of `battle.rs` holds exactly when the
weak-defender list of `judge.rs` is empty. -/
lemma defenders_strong_iff_no_weak (j : Judge) (atk dfd : List String) :
    (dfd.all (fun word =>
      j.valid word && word.length + 1 ≥ (longest_word atk).length)) = true ↔
    ((dfd.enum.filter (fun iw =>
      !(j.valid iw.2) ||
        iw.2.length + 1 < (longest_word atk).length)).map
        (fun iw => iw.1)).isEmpty = true := by
  rw [List.all_eq_true, List.isEmpty_iff, List.map_eq_nil_iff,
    List.filter_eq_nil_iff]
  constructor
  · rintro hall ⟨i, w⟩ hmem
    have hw : w ∈ dfd := List.getElem?_mem
      (List.mem_enum_iff_getElem?.mp hmem)
    have := hall w hw
    simp only [Bool.and_eq_true, decide_eq_true_eq] at this
    simp only [Bool.or_eq_true, Bool.not_eq_true', decide_eq_true_eq, not_or]
    constructor
    · simp [this.1]
    · omega
  · intro hnone w hw
    rcases List.getElem_of_mem hw with ⟨i, hlt, hget⟩
    have hmem : (i, w) ∈ dfd.enum := List.mem_enum_iff_getElem?.mpr
      (by rw [List.getElem?_eq_getElem hlt, hget])
    have := hnone (i, w) hmem
    simp only [Bool.or_eq_true, Bool.not_eq_true', decide_eq_true_eq, not_or] at this
    simp only [Bool.and_eq_true, decide_eq_true_eq]
    exact ⟨by simpa using this.1, by omega⟩

/-- C9: the older `Judge::Battle` of `battle.rs` and the newer
`Judge::battle` of `judge.rs` name the same winner on every input over
the same dictionary. -/
theorem Battle_agrees_with_battle (j : Judge) (atk dfd : List String) :
    (j.Battle atk dfd = .NoBattle ↔ j.battle atk dfd = .NoBattle) ∧
    (j.Battle atk dfd = .DefenderWins ↔ j.battle atk dfd = .DefenderWins) ∧
    (j.Battle atk dfd = .AttackerWins ↔
      ∃ is, j.battle atk dfd = .AttackerWins is) := by
  rw [Judge.Battle, Judge.battle]
  by_cases h1 : (atk.isEmpty || dfd.isEmpty) = true
  · rw [if_pos h1, if_pos h1]
    refine ⟨by simp, by simp, by simp⟩
  · rw [if_neg h1, if_neg h1]
    by_cases h2 : (atk.any (fun word => !(j.valid word))) = true
    · rw [if_pos h2, if_pos h2]
      refine ⟨by simp, by simp, by simp⟩
    · rw [if_neg h2, if_neg h2]
      by_cases h3 : (dfd.all (fun word =>
          j.valid word && word.length + 1 ≥ (longest_word atk).length)) = true
      · have h4 := (defenders_strong_iff_no_weak j atk dfd).mp h3
        rw [if_pos h3, if_pos h4]
        refine ⟨by simp, by simp, by simp⟩
      · have h4 : ¬ ((dfd.enum.filter (fun iw =>
            !(j.valid iw.2) ||
              iw.2.length + 1 < (longest_word atk).length)).map
              (fun iw => iw.1)).isEmpty = true := by
          intro hcon
          exact h3 ((defenders_strong_iff_no_weak j atk dfd).mpr hcon)
        rw [if_neg h3, if_neg h4]
        refine ⟨by simp, by simp, by simp⟩

/-! ## Error handling of moves -/

lemma swap_error_frame (b : Board) (p : Nat) (c1 c2 : Coordinate)
    (b2 : Board) (e : GamePlayError)
    (hs : b.swap p c1 c2 = (b2, some e)) : b2 = b := by
  rw [Board.swap] at hs
  repeat' split at hs
  all_goals simp only [Prod.mk.injEq] at hs
  all_goals first
    | exact hs.1.symm
    | exact absurd hs.2 (by simp)

/-- `Hands::use_tile` only ever reports an unknown player or a missing
tile. -/
lemma use_tile_error (h : Hands) (p : Nat) (t : Char) (e : GamePlayError)
    (he : h.use_tile p t = .error e) :
    e = .NonExistentPlayer p ∨ e = .PlayerDoesNotHaveTile p t := by
  rw [Hands.use_tile] at he
  split at he
  · injection he with h1
    exact Or.inl h1.symm
  · split at he
    · exact Except.noConfusion he
    · injection he with h1
      exact Or.inr h1.symm

/-- C7: a failing `Board::make_move` leaves the grid unmodified — the
board returned with a structured error is the input board (all
validation precedes the first grid write in each branch). -/
theorem make_move_error_frame (b : Board) (h : Hands) (j : Judge) (m : Move)
    (b2 : Board) (h2 : Hands) (e : GamePlayError)
    (herr : b.make_move h j m = (b2, h2, some e)) : b2 = b := by
  cases m with
  | Place player tile position =>
    simp only [Board.make_move] at herr
    repeat' split at herr
    all_goals simp only [Prod.mk.injEq] at herr
    all_goals first
      | exact herr.1.symm
      | exact absurd herr.2.2 (by simp)
  | Swap player c1 c2 =>
    simp only [Board.make_move, Prod.mk.injEq] at herr
    rw [← herr.1]
    exact swap_error_frame b player c1 c2 (b.swap player c1 c2).1 e
      (by rw [← herr.2.2])

/-- Witness for `make_move_error_frame`: an out-of-bounds placement. -/
theorem make_move_error_frame_witness :
    (exEmptyBoard.make_move exHands shortDict (.Place 0 'A' ⟨5, 5⟩)).1 =
      exEmptyBoard :=
  make_move_error_frame exEmptyBoard exHands shortDict (.Place 0 'A' ⟨5, 5⟩)
    (exEmptyBoard.make_move exHands shortDict (.Place 0 'A' ⟨5, 5⟩)).1
    (exEmptyBoard.make_move exHands shortDict (.Place 0 'A' ⟨5, 5⟩)).2.1
    (.OutSideBoardDimensions ⟨5, 5⟩) (by rfl)

/-- C6: for an in-bounds, empty, non-root placement position of a valid
player, `Board::make_move` fails with the non-adjacent-placement error
exactly when no cardinal neighbour of the position is occupied by that
player; at the root or next to an own tile the adjacency check passes. -/
theorem make_move_adjacency_check (b : Board) (h : Hands) (j : Judge)
    (player : Nat) (tile : Char) (position root : Coordinate)
    (hin : b.inB position = true) (hemp : b.squares position = .Empty)
    (hroot : b.get_root player = .ok root) :
    (position ≠ root ∧
        (b.neighbouring_squares position).any (fun cs =>
          match cs.2 with
          | .Occupied p _ => p == player
          | .Empty => false) = false →
      b.make_move h j (.Place player tile position) =
        (b, h, some .NonAdjacentPlace)) ∧
    (position = root ∨
        (b.neighbouring_squares position).any (fun cs =>
          match cs.2 with
          | .Occupied p _ => p == player
          | .Empty => false) = true →
      (b.make_move h j (.Place player tile position)).2.2 ≠
        some .NonAdjacentPlace) := by
  have hget : b.get position = .ok Square.Empty := by
    rw [Board.get, if_pos hin, hemp]
  constructor
  · rintro ⟨hne, hnb⟩
    simp only [Board.make_move, hget, hroot]
    rw [if_pos ⟨hne, by simp [hnb]⟩]
  · intro hpass
    have hcond : ¬ (position ≠ root ∧
        ¬ (b.neighbouring_squares position).any (fun cs =>
          match cs.2 with
          | .Occupied p _ => p == player
          | .Empty => false) = true) := by
      rcases hpass with hr | hb
      · intro hc
        exact hc.1 hr
      · intro hc
        exact hc.2 hb
    simp only [Board.make_move, hget, hroot]
    rw [if_neg hcond]
    rcases huse : h.use_tile player tile with e' | h'
    · simp only [huse]
      rcases use_tile_error h player tile e' huse with he | he <;>
        simp [he]
    · simp only [huse]
      have hset : b.set position player tile = .ok (b.setD position player tile) := by
        rw [Board.set, if_pos hin]
      simp only [hset]
      simp

/-- Witness for `make_move_adjacency_check`: on the empty two-by-two
board, placing away from the root with no own neighbour is rejected as
non-adjacent. -/
theorem make_move_adjacency_check_witness :
    exEmptyBoard.make_move exHands shortDict (.Place 0 'A' ⟨1, 1⟩) =
      (exEmptyBoard, exHands, some .NonAdjacentPlace) :=
  (make_move_adjacency_check exEmptyBoard exHands shortDict 0 'A' ⟨1, 1⟩ ⟨0, 0⟩
    (by decide) (by rfl) (by rfl)).1 ⟨by decide, by rfl⟩

/-! ## Truncation -/

lemma truncateB_squares (b : Board) (c : Coordinate) :
    b.truncateB.squares c =
      match b.squares c with
      | .Empty => .Empty
      | .Occupied p l => if c ∈ b.reachList p then .Occupied p l else .Empty :=
  rfl

lemma neighbourCoords_truncateB (b : Board) :
    b.truncateB.neighbourCoords = b.neighbourCoords := rfl

lemma rootD_truncateB (b : Board) : b.truncateB.rootD = b.rootD := rfl

/-- Truncation never makes a square occupied by `p` when it was not. -/
lemma occB_truncateB_false (b : Board) (c : Coordinate) (p : Nat)
    (h : b.occB c p = false) : b.truncateB.occB c p = false := by
  rcases hc : b.squares c with _ | ⟨q, l⟩
  · simp [Board.occB, truncateB_squares, hc]
  · simp only [Board.occB, hc] at h
    by_cases hr : c ∈ b.reachList q
    · simp only [Board.occB, truncateB_squares, hc, hr, if_true]
      exact h
    · simp [Board.occB, truncateB_squares, hc, hr]

/-- A root-connected occupied square survives truncation. -/
lemma occB_truncateB_true (b : Board) (c : Coordinate) (p : Nat)
    (h : b.occB c p = true) (hr : c ∈ b.reachList p) :
    b.truncateB.occB c p = true := by
  rcases hc : b.squares c with _ | ⟨q, l⟩
  · rw [Board.occB, hc] at h
    exact absurd h (by simp)
  · rw [Board.occB, hc] at h
    have hq : q = p := by simpa using h
    subst hq
    simp [Board.occB, truncateB_squares, hc, hr]

lemma subset_expand (b : Board) (p : Nat) (s : List Coordinate) :
    s ⊆ b.expand p s :=
  List.subset_append_left _ _

lemma reachN_subset (b : Board) (p : Nat) {n m : Nat} (h : n ≤ m) :
    b.reachN p n ⊆ b.reachN p m := by
  induction h with
  | refl => exact fun _ hx => hx
  | step _ ih =>
    intro x hx
    exact subset_expand _ _ _ (ih hx)

/-- The one-step closure picks up every occupied neighbour of a reached
square. -/
lemma mem_expand_of_step (b : Board) (p : Nat) (s : List Coordinate)
    (c c' : Coordinate) (hc : c ∈ s) (hn : c' ∈ b.neighbourCoords c)
    (ho : b.occB c' p = true) : c' ∈ b.expand p s := by
  rw [Board.expand]
  by_cases hs : c' ∈ s
  · exact List.mem_append_left _ hs
  · refine List.mem_append_right _ ?_
    rw [List.mem_dedup, List.mem_filter]
    exact ⟨List.mem_flatMap.mpr ⟨c, hc, hn⟩, by simp [ho, hs]⟩

/-- Truncation does not change the root-connected set: every square the
search visits is itself root-connected, hence survives. -/
lemma reachN_truncateB (b : Board) (p : Nat) :
    ∀ n, n ≤ b.width * b.height → b.truncateB.reachN p n = b.reachN p n := by
  intro n
  induction n with
  | zero => intro _; rfl
  | succ k ih =>
    intro hk
    have hkk : k ≤ b.width * b.height := Nat.le_of_succ_le hk
    rw [Board.reachN, Board.reachN, ih hkk]
    rw [Board.expand, Board.expand, neighbourCoords_truncateB]
    congr 1
    congr 1
    apply List.filter_congr
    intro x hx
    rcases List.mem_flatMap.mp hx with ⟨c, hc, hn⟩
    cases hocc : b.occB x p with
    | false => rw [occB_truncateB_false b x p hocc]
    | true =>
      have hx' : x ∈ b.reachN p (k + 1) := by
        rw [Board.reachN]
        exact mem_expand_of_step b p _ c x hc hn hocc
      have hxr : x ∈ b.reachList p := reachN_subset b p hk hx'
      rw [occB_truncateB_true b x p hocc hxr]

lemma reachList_truncateB (b : Board) (p : Nat) :
    b.truncateB.reachList p = b.reachList p :=
  reachN_truncateB b p _ (Nat.le_refl _)

lemma truncateB_idem (b : Board) : b.truncateB.truncateB = b.truncateB := by
  apply Board.ext <;> try rfl
  funext c
  rcases hc : b.squares c with _ | ⟨p, l⟩
  · have h1 : b.truncateB.squares c = .Empty := by
      simp [truncateB_squares, hc]
    have h2 : b.truncateB.truncateB.squares c = .Empty := by
      rw [truncateB_squares (b.truncateB) c, h1]
    rw [h2, h1]
  · by_cases hr : c ∈ b.reachList p
    · have h1 : b.truncateB.squares c = .Occupied p l := by
        simp [truncateB_squares, hc, hr]
      have h2 : b.truncateB.truncateB.squares c =
          if c ∈ b.truncateB.reachList p then Square.Occupied p l else .Empty := by
        rw [truncateB_squares (b.truncateB) c, h1]
      rw [h2, h1, reachList_truncateB, if_pos hr]
    · have h1 : b.truncateB.squares c = .Empty := by
        simp [truncateB_squares, hc, hr]
      have h2 : b.truncateB.truncateB.squares c = .Empty := by
        rw [truncateB_squares (b.truncateB) c, h1]
      rw [h2, h1]

/-- C8: the truncation pass is idempotent on the grid — a second pass
changes nothing. -/
theorem truncation_idempotent (b : Board) (h h' : Hands) :
    (((b.truncate h).1).truncate h').1 = (b.truncate h).1 := by
  show b.truncateB.truncateB = b.truncateB
  exact truncateB_idem b

/-! ## The connectivity invariant after truncation -/

/-- Every square visited by the bounded search is genuinely reachable in
the truncated board (each visited square survives truncation). -/
lemma reachN_sound (b : Board) (p : Nat) :
    ∀ n, n ≤ b.width * b.height → ∀ c ∈ b.reachN p n,
      Board.Reaches b.truncateB p c := by
  intro n
  induction n with
  | zero =>
    intro _ c hc
    rw [Board.reachN, List.mem_singleton] at hc
    subst hc
    exact Board.Reaches.root
  | succ k ih =>
    intro hk c hc
    have hkk : k ≤ b.width * b.height := Nat.le_of_succ_le hk
    rw [Board.reachN, Board.expand] at hc
    rcases List.mem_append.mp hc with hc | hc
    · exact ih hkk c hc
    · rw [List.mem_dedup, List.mem_filter] at hc
      rcases hc with ⟨hmem, hpred⟩
      rcases List.mem_flatMap.mp hmem with ⟨d, hd, hnd⟩
      have hocc : b.occB c p = true := by
        simp only [Bool.and_eq_true] at hpred
        exact hpred.1
      have hc' : c ∈ b.reachN p (k + 1) := by
        rw [Board.reachN]
        exact mem_expand_of_step b p _ d c hd hnd hocc
      have hcr : c ∈ b.reachList p := reachN_subset b p hk hc'
      exact Board.Reaches.step (ih hkk d hd) hnd
        (occB_truncateB_true b c p hocc hcr)

/-- The truncated board always satisfies the connectivity invariant. -/
lemma connected_truncateB (b : Board) : b.truncateB.connectedInv := by
  intro c p l _ hsq
  rw [truncateB_squares] at hsq
  rcases hc : b.squares c with _ | ⟨q, m⟩ <;> simp only [hc] at hsq
  · exact Square.noConfusion hsq
  · by_cases hr : c ∈ b.reachList q
    · rw [if_pos hr] at hsq
      injection hsq with hq hl
      rw [← hq]
      exact reachN_sound b q _ (Nat.le_refl _) c hr
    · rw [if_neg hr] at hsq
      exact Square.noConfusion hsq

/-- Attack resolution always ends in the truncation pass, so its board
satisfies the connectivity invariant whatever the battle did. -/
lemma connected_resolve_attack (b : Board) (p : Nat) (pos : Coordinate)
    (j : Judge) (h : Hands) : (b.resolve_attack p pos j h).1.connectedInv :=
  connected_truncateB _

lemma inB_congr (b b2 : Board) (hw : b2.width = b.width)
    (hh : b2.height = b.height) : b2.inB = b.inB := by
  funext c
  rw [Board.inB, Board.inB, hw, hh]

lemma neighbourCoords_congr (b b2 : Board) (hw : b2.width = b.width)
    (hh : b2.height = b.height) :
    b2.neighbourCoords = b.neighbourCoords := by
  funext c
  rw [Board.neighbourCoords, Board.neighbourCoords, inB_congr b b2 hw hh]

lemma rootD_congr (b b2 : Board) (hw : b2.width = b.width)
    (hh : b2.height = b.height) (hr : b2.roots = b.roots) :
    b2.rootD = b.rootD := by
  funext p
  rw [Board.rootD, Board.rootD, hw, hh, hr]

/-- Reachability only depends on the dimensions, the roots and the
occupancy relation. -/
lemma reaches_congr (b b2 : Board) (hw : b2.width = b.width)
    (hh : b2.height = b.height) (hr : b2.roots = b.roots)
    (ho : ∀ c q, b2.occB c q = b.occB c q) (p : Nat) (c : Coordinate)
    (h : b.Reaches p c) : b2.Reaches p c := by
  induction h with
  | root =>
    rw [← congrFun (rootD_congr b b2 hw hh hr) p]
    exact Board.Reaches.root
  | step _ hn hocc ih =>
    refine Board.Reaches.step ih ?_ ?_
    · rw [neighbourCoords_congr b b2 hw hh]
      exact hn
    · rw [ho]
      exact hocc

/-- The connectivity invariant only depends on the dimensions, the roots
and the occupancy relation. -/
lemma connectedInv_congr (b b2 : Board) (hw : b2.width = b.width)
    (hh : b2.height = b.height) (hr : b2.roots = b.roots)
    (ho : ∀ c q, b2.occB c q = b.occB c q) (hc : b.connectedInv) :
    b2.connectedInv := by
  intro c p l hin hsq
  have hocc2 : b2.occB c p = true := by
    rw [Board.occB, hsq]
    simp
  have hocc : b.occB c p = true := by
    rw [← ho]
    exact hocc2
  have hinb : b.inB c = true := by
    rw [Board.inB, ← hw, ← hh]
    exact hin
  rw [Board.occB] at hocc
  rcases hsq1 : b.squares c with _ | ⟨q, m⟩ <;> simp only [hsq1] at hocc
  · exact absurd hocc (by simp)
  · have hq : q = p := by simpa using hocc
    rw [hq] at hsq1
    exact reaches_congr b b2 hw hh hr ho p c (hc c p m hinb hsq1)

lemma setD_width (b : Board) (c : Coordinate) (p : Nat) (l : Char) :
    (b.setD c p l).width = b.width := by
  rw [Board.setD]
  split <;> rfl

lemma setD_height (b : Board) (c : Coordinate) (p : Nat) (l : Char) :
    (b.setD c p l).height = b.height := by
  rw [Board.setD]
  split <;> rfl

lemma setD_roots (b : Board) (c : Coordinate) (p : Nat) (l : Char) :
    (b.setD c p l).roots = b.roots := by
  rw [Board.setD]
  split <;> rfl

/-- Writing a tile onto a square the same player already occupies does
not change the occupancy relation anywhere. -/
lemma occB_setD (b : Board) (c : Coordinate) (p : Nat) (l : Char)
    (hocc : b.occB c p = true) :
    ∀ c' q, (b.setD c p l).occB c' q = b.occB c' q := by
  intro c' q
  rw [Board.setD]
  split
  · by_cases hc : c' = c
    · subst hc
      rcases hsq : b.squares c' with _ | ⟨p0, m⟩
      · rw [Board.occB, hsq] at hocc
        exact absurd hocc (by simp)
      · have hp0 : p0 = p := by
          rw [Board.occB, hsq] at hocc
          simpa using hocc
        simp [Board.occB, hsq, hp0]
    · simp [Board.occB, hc]
  · rfl

lemma get_ok (b : Board) (c : Coordinate) (sq : Square)
    (h : b.get c = .ok sq) : b.inB c = true ∧ b.squares c = sq := by
  rw [Board.get] at h
  split at h
  · simp only [Except.ok.injEq] at h
    exact ⟨by assumption, h⟩
  · exact Except.noConfusion h

/-- A successful swap exchanges two letters of the same owner, so the
connectivity invariant carries over. -/
lemma connected_swap (b : Board) (player : Nat) (c1 c2 : Coordinate)
    (b2 : Board) (hsw : b.swap player c1 c2 = (b2, none))
    (hc : b.connectedInv) : b2.connectedInv := by
  rw [Board.swap] at hsw
  split at hsw
  · exact absurd hsw (by simp)
  · exact absurd hsw (by simp)
  · rename_i p1 l1 hget1
    split at hsw
    · rename_i hp1
      split at hsw
      · exact absurd hsw (by simp)
      · exact absurd hsw (by simp)
      · rename_i p2 l2 hget2
        split at hsw
        · rename_i hp2
          simp only [Prod.mk.injEq] at hsw
          rcases get_ok b c1 _ hget1 with ⟨hin1, hsq1⟩
          rcases get_ok b c2 _ hget2 with ⟨hin2, hsq2⟩
          have occ1 : b.occB c1 player = true := by
            rw [Board.occB, hsq1, hp1]
            simp
          have e1 := occB_setD b c1 player l2 occ1
          have occ2 : (b.setD c1 player l2).occB c2 player = true := by
            rw [e1, Board.occB, hsq2, hp2]
            simp
          have e2 := occB_setD (b.setD c1 player l2) c2 player l1 occ2
          refine connectedInv_congr b b2 ?_ ?_ ?_ ?_ hc
          · rw [← hsw.1, setD_width, setD_width]
          · rw [← hsw.1, setD_height, setD_height]
          · rw [← hsw.1, setD_roots, setD_roots]
          · intro c' q
            rw [← hsw.1, e2, e1]
        · exact absurd hsw (by simp)
    · exact absurd hsw (by simp)

/-- C2 (amended): every successful move preserves the connectivity
invariant — a placement re-establishes it unconditionally through the
final truncation pass, and a swap leaves the occupancy relation
untouched. -/
theorem make_move_preserves_connectivity (b : Board) (h : Hands)
    (j : Judge) (m : Move) (b2 : Board) (h2 : Hands)
    (hc : b.connectedInv) (hs : b.make_move h j m = (b2, h2, none)) :
    b2.connectedInv := by
  cases m with
  | Place player tile position =>
    simp only [Board.make_move] at hs
    repeat' split at hs
    all_goals simp only [Prod.mk.injEq, reduceCtorEq, and_false] at hs
    rw [← hs.1]
    exact connected_resolve_attack _ _ _ _ _
  | Swap player c1 c2 =>
    simp only [Board.make_move, Prod.mk.injEq] at hs
    refine connected_swap b player c1 c2 b2 ?_ hc
    rw [← hs.1, ← hs.2.2]

/-- Witness for `make_move_preserves_connectivity`: a root placement on
the empty board. -/
theorem make_move_preserves_connectivity_witness :
    ((exEmptyBoard.make_move exHands shortDict (.Place 0 'A' ⟨0, 0⟩)).1).connectedInv :=
  make_move_preserves_connectivity exEmptyBoard exHands shortDict
    (.Place 0 'A' ⟨0, 0⟩)
    (exEmptyBoard.make_move exHands shortDict (.Place 0 'A' ⟨0, 0⟩)).1
    (exEmptyBoard.make_move exHands shortDict (.Place 0 'A' ⟨0, 0⟩)).2.1
    (fun _ _ _ _ hsq => Square.noConfusion hsq) (by rfl)

/-- On the swapped split board, only the root is reachable for player 0:
both neighbours of the root are empty. -/
lemma reaches_exSplit_swap (c : Coordinate)
    (h : Board.Reaches
      (exSplitBoard.make_move exHands shortDict (.Swap 0 ⟨0, 0⟩ ⟨1, 1⟩)).1
      0 c) : c = ⟨0, 0⟩ := by
  induction h with
  | root => rfl
  | step _ hn hocc ih =>
    rw [ih] at hn
    have hlist : (exSplitBoard.make_move exHands shortDict
        (.Swap 0 ⟨0, 0⟩ ⟨1, 1⟩)).1.neighbourCoords ⟨0, 0⟩ =
        [⟨0, 1⟩, ⟨1, 0⟩] := by rfl
    rw [hlist] at hn
    simp only [List.mem_cons, List.mem_singleton, List.not_mem_nil,
      or_false] at hn
    rcases hn with rfl | rfl
    · exact absurd hocc (by decide)
    · exact absurd hocc (by decide)

/-- C2 as stated is false: from a grid violating the invariant, a swap
move succeeds, runs no truncation, and leaves an occupied square that is
not reachable from its owner's root. -/
theorem connectivity_every_grid_counterexample :
    (exSplitBoard.make_move exHands shortDict (.Swap 0 ⟨0, 0⟩ ⟨1, 1⟩)).2.2 =
        none ∧
      (exSplitBoard.make_move exHands shortDict
          (.Swap 0 ⟨0, 0⟩ ⟨1, 1⟩)).1.inB ⟨1, 1⟩ = true ∧
      (exSplitBoard.make_move exHands shortDict
          (.Swap 0 ⟨0, 0⟩ ⟨1, 1⟩)).1.squares ⟨1, 1⟩ = .Occupied 0 'A' ∧
      ¬ (exSplitBoard.make_move exHands shortDict
          (.Swap 0 ⟨0, 0⟩ ⟨1, 1⟩)).1.connectedInv := by
  refine ⟨rfl, rfl, rfl, ?_⟩
  intro hcon
  have hr := hcon ⟨1, 1⟩ 0 'A' rfl rfl
  exact absurd (reaches_exSplit_swap ⟨1, 1⟩ hr) (by decide)

/-! ## Applying a battle outcome -/

lemma clearSquare_fst (bh : Board × Hands) (c : Coordinate) :
    (clearSquare bh c).1 = bh.1.clearD c := by
  rw [clearSquare]
  split <;> rfl

lemma clearSquares_fst (cs : List Coordinate) (bh : Board × Hands) :
    (clearSquares bh cs).1 = cs.foldl Board.clearD bh.1 := by
  induction cs generalizing bh with
  | nil => rfl
  | cons c cs ih =>
    rw [clearSquares, List.foldl_cons, List.foldl_cons, ← clearSquares,
      ih, clearSquare_fst]

lemma clearD_inB (b : Board) (c0 : Coordinate) :
    (b.clearD c0).inB = b.inB := by
  rw [Board.clearD]
  split <;> rfl

lemma clearD_squares (b : Board) (c0 c : Coordinate) :
    (b.clearD c0).squares c =
      if b.inB c0 = true ∧ c = c0 then .Empty else b.squares c := by
  rw [Board.clearD]
  split
  · rename_i h0
    by_cases hc : c = c0
    · simp [hc, h0]
    · simp [hc]
  · rename_i h0
    have hcond : ¬ (b.inB c0 = true ∧ c = c0) := fun hcon => h0 hcon.1
    simp [hcond]

/-- Clearing a list of coordinates empties exactly the listed in-bounds
squares and touches nothing else. -/
lemma foldl_clearD_squares (cs : List Coordinate) (b : Board) (c : Coordinate) :
    (cs.foldl Board.clearD b).squares c =
      if c ∈ cs ∧ b.inB c = true then .Empty else b.squares c := by
  induction cs generalizing b with
  | nil => simp
  | cons c0 cs ih =>
    rw [List.foldl_cons, ih, congrFun (clearD_inB b c0) c]
    by_cases hin : b.inB c = true
    · simp only [hin, and_true]
      by_cases hc : c ∈ cs
      · simp [hc, List.mem_cons]
      · simp only [hc, if_false]
        rw [clearD_squares]
        by_cases hcc : c = c0
        · subst hcc
          simp [hin]
        · simp [hcc, List.mem_cons, hc]
    · simp only [hin, and_false, if_false]
      rw [clearD_squares]
      have hcond : ¬ (b.inB c0 = true ∧ c = c0) := by
        rintro ⟨h1, rfl⟩
        exact hin h1
      simp [hcond]

lemma clearSquares_snd (cs : List Coordinate) (bh : Board × Hands) :
    (clearSquares bh cs).2 =
      { bh.2 with returned := bh.2.returned ++ clearedLetters bh.1 cs } := by
  induction cs generalizing bh with
  | nil => simp [clearSquares, clearedLetters]
  | cons c cs ih =>
    rw [clearSquares, List.foldl_cons, ← clearSquares, ih, clearSquare_fst]
    rw [clearSquare]
    rcases hget : bh.1.get c with e | sq
    · simp only [clearedLetters, hget]
      simp
    · rcases sq with _ | ⟨q, letter⟩
      · simp only [clearedLetters, hget]
        simp
      · simp only [clearedLetters, hget, Hands.return_tile]
        simp

lemma clearSquares_append (bh : Board × Hands) (cs cs' : List Coordinate) :
    clearSquares bh (cs ++ cs') = clearSquares (clearSquares bh cs) cs' := by
  rw [clearSquares, clearSquares, clearSquares, List.foldl_append]

lemma attackerWins_foldl (dfd : List (List Coordinate)) (losers : List Nat)
    (bh : Board × Hands) :
    losers.foldl (fun bh i => clearSquares bh ((dfd.get? i).getD [])) bh =
      clearSquares bh (losers.flatMap (fun i => (dfd.get? i).getD [])) := by
  induction losers generalizing bh with
  | nil => rfl
  | cons i is ih =>
    rw [List.foldl_cons, ih, List.flatMap_cons, clearSquares_append]

/-- C5: the outcome-application block of `Board::resolve_attack` clears
nothing on `NoBattle`; on `DefenderWins` it clears exactly the in-bounds
coordinates of the attacker words, returning each cleared letter to the
inventory, and leaves every other square (in particular every defender
square) unchanged; on `AttackerWins` it clears exactly the in-bounds
coordinates of the defender words at the losing indices, returning their
letters, and leaves every other square (strong defenders and all
attackers) unchanged. -/
theorem resolve_attack_outcome_application (b : Board) (h : Hands)
    (attackers defenders : List (List Coordinate)) :
    (applyOutcome (b, h) attackers defenders .NoBattle = (b, h)) ∧
    (∀ c, c ∈ attackers.flatten → b.inB c = true →
      (applyOutcome (b, h) attackers defenders .DefenderWins).1.squares c =
        .Empty) ∧
    (∀ c, c ∉ attackers.flatten →
      (applyOutcome (b, h) attackers defenders .DefenderWins).1.squares c =
        b.squares c) ∧
    ((applyOutcome (b, h) attackers defenders .DefenderWins).2 =
      { h with returned := h.returned ++ clearedLetters b attackers.flatten }) ∧
    (∀ losers : List Nat,
      (∀ c, (∃ i ∈ losers, c ∈ (defenders.get? i).getD []) → b.inB c = true →
        (applyOutcome (b, h) attackers defenders
          (.AttackerWins losers)).1.squares c = .Empty) ∧
      (∀ c, (∀ i ∈ losers, c ∉ (defenders.get? i).getD []) →
        (applyOutcome (b, h) attackers defenders
          (.AttackerWins losers)).1.squares c = b.squares c) ∧
      ((applyOutcome (b, h) attackers defenders (.AttackerWins losers)).2 =
        { h with returned := h.returned ++
            clearedLetters b (losers.flatMap (fun i => (defenders.get? i).getD [])) })) := by
  refine ⟨rfl, ?_, ?_, ?_, ?_⟩
  · intro c hc hin
    show (clearSquares (b, h) attackers.flatten).1.squares c = .Empty
    rw [clearSquares_fst, foldl_clearD_squares, if_pos ⟨hc, hin⟩]
  · intro c hc
    show (clearSquares (b, h) attackers.flatten).1.squares c = b.squares c
    rw [clearSquares_fst, foldl_clearD_squares,
      if_neg (fun hcon => hc hcon.1)]
  · show (clearSquares (b, h) attackers.flatten).2 = _
    rw [clearSquares_snd]
  · intro losers
    have hfold : applyOutcome (b, h) attackers defenders
        (.AttackerWins losers) =
        clearSquares (b, h)
          (losers.flatMap (fun i => (defenders.get? i).getD [])) := by
      show losers.foldl
        (fun bh i => clearSquares bh ((defenders.get? i).getD [])) (b, h) = _
      rw [attackerWins_foldl]
    refine ⟨?_, ?_, ?_⟩
    · intro c hc hin
      have hmem : c ∈ losers.flatMap (fun i => (defenders.get? i).getD []) := by
        rcases hc with ⟨i, hi, hci⟩
        exact List.mem_flatMap.mpr ⟨i, hi, hci⟩
      rw [hfold, clearSquares_fst, foldl_clearD_squares, if_pos ⟨hmem, hin⟩]
    · intro c hc
      have hnm : ¬ (c ∈ losers.flatMap (fun i => (defenders.get? i).getD []) ∧
          b.inB c = true) := by
        rintro ⟨hmem, _⟩
        rcases List.mem_flatMap.mp hmem with ⟨i, hi, hci⟩
        exact hc i hi hci
      rw [hfold, clearSquares_fst, foldl_clearD_squares, if_neg hnm]
    · rw [hfold, clearSquares_snd]

/-- Witness for `resolve_attack_outcome_application`: a lost defence on
the split board clears the attacker's square. -/
theorem resolve_attack_outcome_application_witness :
    (applyOutcome (exSplitBoard, exHands) [[⟨0, 0⟩]] [[⟨1, 1⟩]]
      .DefenderWins).1.squares ⟨0, 0⟩ = .Empty :=
  (resolve_attack_outcome_application exSplitBoard exHands
    [[⟨0, 0⟩]] [[⟨1, 1⟩]]).2.1 ⟨0, 0⟩ (by decide) (by decide)
